import Mathlib

/-!
Verification of the frame-aware binary splitter core
(`binary_splitter_core.py`): the sync-word frame-size detector
(`detect_frame_size`), the frame-aligned bulk splitter
(`split_binary_file`) and the bulk-set reconstructor
(`reconstruct_binary_file`).

Byte streams are modelled as `List ℕ` (one entry per byte), the bulk
size cap as a rational number (the source computes
`bulk_size_gb * 1024 * 1024 * 1024` in floating point; rationals model
that arithmetic exactly), and the on-disk bulk directory as a map from
bulk index to optional file content.
-/

/-! ## Hex decoding (`bytes.fromhex`, used at lines 37-43 of the source) -/

/-- Value of a single hexadecimal digit, `none` for a non-digit.
Mirrors the digit handling of Python's `bytes.fromhex`. -/
def hexDigitVal (c : Char) : Option ℕ :=
  if '0' ≤ c ∧ c ≤ '9' then some (c.toNat - '0'.toNat)
  else if 'a' ≤ c ∧ c ≤ 'f' then some (c.toNat - 'a'.toNat + 10)
  else if 'A' ≤ c ∧ c ≤ 'F' then some (c.toNat - 'A'.toNat + 10)
  else none

/-- ASCII whitespace, which `bytes.fromhex` skips between byte pairs. -/
def isAsciiSpace (c : Char) : Bool :=
  c == ' ' || c == '\t' || c == '\n' || c == '\r' || c == '\x0b' || c == '\x0c'

/-- Decoder core of Python's `bytes.fromhex`: whitespace may separate
byte pairs, each byte is exactly two hex digits, anything else is a
decode failure (`none`, modelling the `ValueError`). -/
def fromhexAux : List Char → Option (List ℕ)
  | [] => some []
  | c :: rest =>
    if isAsciiSpace c then fromhexAux rest
    else
      match hexDigitVal c, rest with
      | some hi, d :: rest2 =>
        match hexDigitVal d with
        | some lo => (fromhexAux rest2).map (fun bs => (16 * hi + lo) :: bs)
        | none => none
      | _, _ => none

/-- `bytes.fromhex` on a string: `none` models the `ValueError` raised
for a malformed hex string. -/
def fromhex (s : String) : Option (List ℕ) :=
  fromhexAux s.data

/-! ## Substring search (`bytes.find`) -/

/-- Index of the first occurrence of `pat` as a contiguous sublist of
`l` (the whole pattern must fit), `none` when absent.  Mirrors
`bytes.find` for a non-empty pattern. -/
def findSub (pat : List ℕ) : List ℕ → Option ℕ
  | [] => if pat.isPrefixOf [] then some 0 else none
  | a :: t =>
    if pat.isPrefixOf (a :: t) then some 0
    else (findSub pat t).map (fun i => i + 1)

/-! ## `detect_frame_size` (source lines 24-72) -/

/-- Errors raised by `detect_frame_size` before any file access: a hex
string that does not decode (`ValueError("Invalid sync word hex
format.")`) or one that decodes to zero bytes
(`ValueError("Sync word cannot be empty.")`). -/
inductive SyncWordError where
  | invalidHex : SyncWordError
  | emptySyncWord : SyncWordError
deriving DecidableEq

/-- Shallow embedding of `detect_frame_size`: `file` is the byte
content of the (readable) input file; the result is
`Except.error _` for the sync-word validation failures and
`Except.ok r` otherwise, where `r = none` models the soft "not found"
result and `r = some n` the detected frame size.  The default
arguments in the source are `search_chunk_size = 4096` and
`max_frame_size_guess = 65536`. -/
def detect_frame_size (file : List ℕ) (syncWordHex : String)
    (searchChunkSize : ℕ) (maxFrameSizeGuess : ℕ) :
    Except SyncWordError (Option ℕ) :=
  match fromhex syncWordHex with
  | none => Except.error SyncWordError.invalidHex
  | some syncWordBytes =>
    if syncWordBytes = [] then Except.error SyncWordError.emptySyncWord
    else
      -- chunk = infile.read(search_chunk_size)
      let chunk := file.take searchChunkSize
      match findSub syncWordBytes chunk with
      | none => Except.ok none
      | some firstSyncIndex =>
        -- infile.seek(first_sync_index + len(sync_word_bytes));
        -- search_chunk_next = infile.read(max_frame_size_guess)
        let searchChunkNext :=
          (file.drop (firstSyncIndex + syncWordBytes.length)).take maxFrameSizeGuess
        match findSub syncWordBytes searchChunkNext with
        | none => Except.ok none
        | some secondSyncIndex =>
          let detectedFrameSize := secondSyncIndex + syncWordBytes.length
          if detectedFrameSize ≤ syncWordBytes.length then Except.ok none
          else Except.ok (some detectedFrameSize)

/-! ## Frame reading (`infile.read(frame_size_bytes)` loop, lines 113-115) -/

/-- Fuelled splitting of a byte stream into successive reads of
`frameSize` bytes; the final read may be shorter.  `frameSize = 0`
yields no frames, matching `infile.read(0) == b''` ending the loop at
once. -/
def chunkFramesAux (frameSize : ℕ) : ℕ → List ℕ → List (List ℕ)
  | 0, _ => []
  | fuel + 1, l =>
    if frameSize = 0 ∨ l = [] then []
    else l.take frameSize :: chunkFramesAux frameSize fuel (l.drop frameSize)

/-- The sequence of frames obtained by reading `frameSize` bytes at a
time until exhaustion (`l.length` is always enough fuel). -/
def chunkFrames (frameSize : ℕ) (l : List ℕ) : List (List ℕ) :=
  chunkFramesAux frameSize l.length l

/-! ## The splitter state machine (`split_binary_file`, lines 76-142) -/

/-- Observable state of one `split_binary_file` run.  A bulk file is
recorded as the list of frames written to it (its byte content is the
flattening); `bulks` are the closed bulk files in creation order,
`current` the open one.  `reports` collects the integer percentages
passed to the progress callback, in order. -/
structure SplitState where
  bulks : List (List (List ℕ))
  current : Option (List (List ℕ))
  currentSize : ℕ
  bytesProcessed : ℕ
  reports : List ℕ
  bulkCount : ℕ

/-- The state at the start of the loop: no bulk open, `bulk_count = 1`. -/
def startState : SplitState :=
  { bulks := []
    current := none
    currentSize := 0
    bytesProcessed := 0
    reports := []
    bulkCount := 1 }

/-- `output_file.close()`: the open bulk, if any, moves to the closed list. -/
def closeBulk (st : SplitState) : SplitState :=
  match st.current with
  | none => st
  | some b => { st with bulks := st.bulks ++ [b], current := none }

/-- Lines 117-124: close the current bulk and open a fresh one
(named with `bulk_count`, which is then incremented;
`current_bulk_size = 0`). -/
def openNewBulk (st : SplitState) : SplitState :=
  { closeBulk st with
    current := some []
    currentSize := 0
    bulkCount := st.bulkCount + 1 }

/-- Lines 126-128: `output_file.write(frame_data)` and the two counters. -/
def writeFrame (st : SplitState) (f : List ℕ) : SplitState :=
  { st with
    current := st.current.map (fun b => b ++ [f])
    currentSize := st.currentSize + f.length
    bytesProcessed := st.bytesProcessed + f.length }

/-- Round a rational to the nearest integer, ties to even: the
rounding mode of IEEE-754 binary64 arithmetic. -/
def roundHalfEven (x : ℚ) : ℤ :=
  if x - ⌊x⌋ < 1 / 2 then ⌊x⌋
  else if (1 : ℚ) / 2 < x - ⌊x⌋ then ⌊x⌋ + 1
  else if ⌊x⌋ % 2 = 0 then ⌊x⌋ else ⌊x⌋ + 1

/-- The IEEE-754 binary64 value nearest to a non-negative rational,
as an exact rational: round to nearest with ties to even at 53
significand bits, i.e. at the unit `2 ^ (e - 52)` where
`e = ⌊log₂ q⌋`, clamped at `e = -1022` so that subnormal inputs round
at the fixed unit `2 ^ (-1074)`.  Overflow to infinity (`q ≥ 2^1024`)
is not modelled; the splitter's progress computation keeps its values
at most slightly above 100, far below that threshold. -/
def binary64Round (q : ℚ) : ℚ :=
  if q ≤ 0 then 0
  else
    let e := max (Int.log 2 q) (-1022)
    let ulp : ℚ := (2 : ℚ) ^ (e - 52)
    (roundHalfEven (q / ulp) : ℚ) * ulp

/-- Lines 130-132: the progress callback receives
`int((bytes_processed / total_size) * 100)`, computed by CPython in
IEEE-754 binary64: `bytes_processed / total_size` is the correctly
rounded binary64 quotient of the two ints, the multiplication by
`100` (exactly representable) rounds again to binary64, and `int()`
truncates toward zero, which for this non-negative value is the
floor. -/
def progressPercentage (bytesProcessed totalSize : ℕ) : ℕ :=
  (⌊binary64Round (binary64Round ((bytesProcessed : ℚ) / (totalSize : ℚ)) * 100)⌋).toNat

/-- Record one progress-callback invocation. -/
def reportProgress (st : SplitState) (totalSize : ℕ) : SplitState :=
  { st with reports := st.reports ++ [progressPercentage st.bytesProcessed totalSize] }

/-- One iteration body of the `while True` loop for a non-empty read
`f` (lines 117-132): roll over to a new bulk when none is open or the
frame would push the running count past the cap, write the frame, and
report progress when the total size is positive. -/
def splitIter (bulkSizeBytes : ℚ) (totalSize : ℕ) (st : SplitState)
    (f : List ℕ) : SplitState :=
  let st1 :=
    if st.current = none ∨ (st.currentSize + f.length : ℚ) > bulkSizeBytes then
      openNewBulk st
    else st
  let st2 := writeFrame st1 f
  if 0 < totalSize then reportProgress st2 totalSize else st2

/-- The `while True` loop of `split_binary_file` over the frames still
to be read.  `stop n` is the value of `stop_flag()` at the poll made
after `n` frames have been written; the stop branch and normal stream
exhaustion both just close the open bulk, exactly as in the source
(the poll made when the stream is already exhausted cannot change the
resulting state, so the empty-frames case closes directly). -/
def splitLoop (bulkSizeBytes : ℚ) (totalSize : ℕ) (stop : ℕ → Bool) :
    List (List ℕ) → ℕ → SplitState → SplitState
  | [], _, st => closeBulk st
  | f :: rest, n, st =>
    if stop n then closeBulk st
    else splitLoop bulkSizeBytes totalSize stop rest (n + 1)
      (splitIter bulkSizeBytes totalSize st f)

/-- Line 90: `bulk_size_bytes = bulk_size_gb * 1024 * 1024 * 1024`. -/
def bulkSizeBytes (bulkSizeGb : ℚ) : ℚ :=
  bulkSizeGb * 1024 * 1024 * 1024

/-- Shallow embedding of `split_binary_file` on source bytes `S`:
`total_size = os.path.getsize = S.length`, frames are successive reads
of `frameSizeBytes` bytes, and the loop starts with no bulk open. -/
def split_binary_file (S : List ℕ) (bulkSizeGb : ℚ) (frameSizeBytes : ℕ)
    (stop : ℕ → Bool) : SplitState :=
  splitLoop (bulkSizeBytes bulkSizeGb) S.length stop
    (chunkFrames frameSizeBytes S) 0 startState

/-! ## Output naming (lines 93-97 and 120) -/

/-- `os.path.basename` for a POSIX path: the part after the last slash. -/
def pyBasename (p : String) : String :=
  String.mk ((p.data.reverse.takeWhile (fun c => c != '/')).reverse)

/-- Index of the last occurrence of `c` in `l`, if any. -/
def lastIdxOf (c : Char) (l : List Char) : Option ℕ :=
  match l.reverse.findIdx? (fun x => x == c) with
  | none => none
  | some k => some (l.length - 1 - k)

/-- Root part of `os.path.splitext` applied to a basename (no slashes):
the extension starts at the last dot, unless every character before
that dot is itself a dot (so `.bashrc` keeps its name). -/
def pyStem (b : String) : String :=
  match lastIdxOf '.' b.data with
  | none => b
  | some d =>
    if (b.data.take d).any (fun c => c != '.') then String.mk (b.data.take d)
    else b

/-- Lines 94-97: the prefix actually used for bulk file names.  The
default parameter value `"output_bulk"` doubles as a sentinel: whenever
the supplied prefix equals it, the source file's basename with its
extension stripped is used instead. -/
def effectiveOutputPfx (inputFilePath : String) (outputPfx : String) : String :=
  if outputPfx = "output_bulk" then pyStem (pyBasename inputFilePath)
  else outputPfx

/-- The declared default of the `output_prefix` parameter (line 76). -/
def defaultOutputPfx : String := "output_bulk"

/-- Zero-padded bulk index, Python's `f"{n:03d}"`. -/
def pad3 (n : ℕ) : String :=
  let s := toString n
  String.mk (List.replicate (3 - s.length) '0') ++ s

/-- File name of the bulk with index `i` for a given prefix
(line 120 and line 160 both build `f"{prefix}_{count:03d}.bin"`). -/
def bulkFileName (pfx : String) (i : ℕ) : String :=
  pfx ++ "_" ++ pad3 i ++ ".bin"

/-! ## `reconstruct_binary_file` (lines 145-181) -/

/-- The scan loop of `reconstruct_binary_file`: `fs i` is the content
of the bulk file with index `i` when that file exists.  Starting at
`idx`, collect file contents until the first missing index.  The
source's `while True` is modelled with fuel; every theorem assumes
enough fuel to reach the first gap. -/
def collectBulks (fs : ℕ → Option (List ℕ)) : ℕ → ℕ → List (List ℕ)
  | 0, _ => []
  | fuel + 1, idx =>
    match fs idx with
    | none => []
    | some d => d :: collectBulks fs fuel (idx + 1)

/-- Shallow embedding of `reconstruct_binary_file`: scan from index 1,
concatenate the found contents, and write them iff the accumulated
bytearray is truthy (`if reconstructed_data:`), i.e. non-empty.
`some bytes` models writing `bytes` to `{directory}/{output_name}`;
`none` models the "No bulk files found to reconstruct." branch, which
writes nothing. -/
def reconstruct_binary_file (fs : ℕ → Option (List ℕ)) (fuel : ℕ) :
    Option (List ℕ) :=
  let reconstructedData := (collectBulks fs fuel 1).flatten
  if reconstructedData = [] then none else some reconstructedData

/-- The directory view left behind by a split run: bulk index `i`
(starting at 1) maps to the byte content of the `i`-th created bulk
file, higher indices are absent. -/
def fsOfBulks (bulks : List (List (List ℕ))) (i : ℕ) : Option (List ℕ) :=
  if 1 ≤ i then (bulks[i - 1]?).map List.flatten else none

/-- Whether a `detect_frame_size` result models a raised exception. -/
def isError (r : Except SyncWordError (Option ℕ)) : Bool :=
  match r with
  | Except.error _ => true
  | Except.ok _ => false

/-- Running totals of a list of byte counts, starting from `acc`:
the value of `bytes_processed` after each frame write. -/
def cumFrom (acc : ℕ) : List ℕ → List ℕ
  | [] => []
  | x :: xs => (acc + x) :: cumFrom (acc + x) xs

/-! ## Lemmas about `chunkFramesAux` / `chunkFrames` -/

/-- The fuel of `chunkFramesAux` is irrelevant once it covers the
length of the stream. -/
theorem chunkFramesAux_congr (F : ℕ) :
    ∀ (fuel fuel' : ℕ) (l : List ℕ), l.length ≤ fuel → l.length ≤ fuel' →
      chunkFramesAux F fuel l = chunkFramesAux F fuel' l := by
  intro fuel
  induction fuel with
  | zero =>
    intro fuel' l h _
    have hl : l = [] := List.length_eq_zero.mp (Nat.le_zero.mp h)
    subst hl
    cases fuel' <;> simp [chunkFramesAux]
  | succ fuel ih =>
    intro fuel' l h h'
    cases l with
    | nil => cases fuel' <;> simp [chunkFramesAux]
    | cons a t =>
      cases fuel' with
      | zero => simp at h'
      | succ fuel'' =>
        by_cases hF : F = 0
        · simp [chunkFramesAux, hF]
        · have hcond : ¬(F = 0 ∨ a :: t = []) := by simp [hF]
          simp only [chunkFramesAux, if_neg hcond]
          have hlen : ((a :: t).drop F).length ≤ fuel := by
            simp only [List.length_drop, List.length_cons]
            simp only [List.length_cons] at h
            omega
          have hlen' : ((a :: t).drop F).length ≤ fuel'' := by
            simp only [List.length_drop, List.length_cons]
            simp only [List.length_cons] at h'
            omega
          rw [ih fuel'' ((a :: t).drop F) hlen hlen']

/-- Reading from an empty stream produces no frames. -/
theorem chunkFrames_nil (F : ℕ) : chunkFrames F [] = [] := rfl

/-- A zero frame size reads `b''` at once and produces no frames. -/
theorem chunkFrames_zero (l : List ℕ) : chunkFrames 0 l = [] := by
  cases l with
  | nil => rfl
  | cons a t => simp [chunkFrames, chunkFramesAux]

/-- Unfolding equation of `chunkFrames` for a non-trivial read. -/
theorem chunkFrames_cons (F : ℕ) (hF : F ≠ 0) (l : List ℕ) (hl : l ≠ []) :
    chunkFrames F l = l.take F :: chunkFrames F (l.drop F) := by
  unfold chunkFrames
  cases hL : l.length with
  | zero => exact absurd (List.length_eq_zero.mp hL) hl
  | succ k =>
    have hcond : ¬(F = 0 ∨ l = []) := by simp [hF, hl]
    simp only [chunkFramesAux, if_neg hcond]
    have h1 : (l.drop F).length ≤ k := by
      simp only [List.length_drop]
      omega
    rw [chunkFramesAux_congr F k (l.drop F).length (l.drop F) h1 le_rfl]

/-- Concatenating the frames in order restores the stream (`F ≥ 1`). -/
theorem chunkFrames_flatten (F : ℕ) (hF : F ≠ 0) (l : List ℕ) :
    (chunkFrames F l).flatten = l := by
  have H : ∀ (n : ℕ) (l : List ℕ), l.length ≤ n → (chunkFrames F l).flatten = l := by
    intro n
    induction n with
    | zero =>
      intro l h
      have hl : l = [] := List.length_eq_zero.mp (Nat.le_zero.mp h)
      subst hl
      rfl
    | succ n ih =>
      intro l h
      by_cases hl : l = []
      · subst hl; rfl
      · rw [chunkFrames_cons F hF l hl, List.flatten_cons,
          ih (l.drop F) (by simp only [List.length_drop]; have := List.length_pos.mpr hl; omega),
          List.take_append_drop]
  exact H l.length l le_rfl

/-- Every frame is a read of at most `F` bytes and is non-empty. -/
theorem chunkFrames_mem (F : ℕ) (hF : F ≠ 0) (l : List ℕ) :
    ∀ fr ∈ chunkFrames F l, fr.length ≤ F ∧ fr ≠ [] := by
  have H : ∀ (n : ℕ) (l : List ℕ), l.length ≤ n →
      ∀ fr ∈ chunkFrames F l, fr.length ≤ F ∧ fr ≠ [] := by
    intro n
    induction n with
    | zero =>
      intro l h
      have hl : l = [] := List.length_eq_zero.mp (Nat.le_zero.mp h)
      subst hl
      intro fr hfr
      simp [chunkFrames_nil] at hfr
    | succ n ih =>
      intro l h fr hfr
      by_cases hl : l = []
      · subst hl; simp [chunkFrames_nil] at hfr
      · rw [chunkFrames_cons F hF l hl] at hfr
        rcases List.mem_cons.mp hfr with h1 | h1
        · subst h1
          refine ⟨by simp, ?_⟩
          simp only [ne_eq, List.take_eq_nil_iff]
          push_neg
          exact ⟨hF, hl⟩
        · exact ih (l.drop F)
            (by simp only [List.length_drop]; have := List.length_pos.mpr hl; omega) fr h1
  exact H l.length l le_rfl

/-- `chunkFrames` only produces an empty frame list for an empty stream
or a zero frame size. -/
theorem chunkFrames_eq_nil_iff (F : ℕ) (l : List ℕ) :
    chunkFrames F l = [] ↔ F = 0 ∨ l = [] := by
  constructor
  · intro h
    by_cases hF : F = 0
    · exact Or.inl hF
    · by_cases hl : l = []
      · exact Or.inr hl
      · rw [chunkFrames_cons F hF l hl] at h
        simp at h
  · rintro (h | h)
    · subst h; exact chunkFrames_zero l
    · subst h; rfl

/-- Every frame except possibly the last has length exactly `F`. -/
theorem chunkFrames_dropLast (F : ℕ) (hF : F ≠ 0) (l : List ℕ) :
    ∀ fr ∈ (chunkFrames F l).dropLast, fr.length = F := by
  have H : ∀ (n : ℕ) (l : List ℕ), l.length ≤ n →
      ∀ fr ∈ (chunkFrames F l).dropLast, fr.length = F := by
    intro n
    induction n with
    | zero =>
      intro l h
      have hl : l = [] := List.length_eq_zero.mp (Nat.le_zero.mp h)
      subst hl
      intro fr hfr
      simp [chunkFrames_nil] at hfr
    | succ n ih =>
      intro l h fr hfr
      by_cases hl : l = []
      · subst hl; simp [chunkFrames_nil] at hfr
      · rw [chunkFrames_cons F hF l hl] at hfr
        cases hrest : chunkFrames F (l.drop F) with
        | nil => rw [hrest] at hfr; simp at hfr
        | cons r rs =>
          rw [hrest, List.dropLast_cons₂] at hfr
          rcases List.mem_cons.mp hfr with h1 | h1
          · subst h1
            have hdrop : l.drop F ≠ [] := by
              intro hcon
              rw [hcon] at hrest
              simp [chunkFrames_nil] at hrest
            have hFlt : F < l.length := by
              by_contra hcon
              exact hdrop (List.drop_eq_nil_of_le (by omega))
            simp [List.length_take]
            omega
          · rw [← hrest] at h1
            exact ih (l.drop F)
              (by simp only [List.length_drop]; have := List.length_pos.mpr hl; omega) fr h1
  exact H l.length l le_rfl

/-! ## Lemmas about `findSub` -/

/-- `findSub` finds an occurrence, and the earliest one: the
characterization of `bytes.find` returning index `i`. -/
theorem findSub_some_iff (pat : List ℕ) (hne : pat ≠ []) :
    ∀ (l : List ℕ) (i : ℕ), findSub pat l = some i ↔
      (pat <+: l.drop i ∧ ∀ j, j < i → ¬ pat <+: l.drop j) := by
  intro l
  induction l with
  | nil =>
    intro i
    simp [findSub, List.isPrefixOf_iff_prefix, hne, List.drop_nil]
  | cons a t ih =>
    intro i
    by_cases hp : pat <+: (a :: t)
    · rw [findSub, if_pos (List.isPrefixOf_iff_prefix.mpr hp)]
      cases i with
      | zero => simp [hp]
      | succ k =>
        simp only [Option.some.injEq]
        constructor
        · intro h; omega
        · rintro ⟨-, hmin⟩
          exact absurd hp (hmin 0 (Nat.succ_pos k))
    · rw [findSub, if_neg (by simpa [List.isPrefixOf_iff_prefix] using hp)]
      cases i with
      | zero =>
        simp only [List.drop_zero]
        constructor
        · intro h
          rcases Option.map_eq_some'.mp h with ⟨i', -, hi'⟩
          omega
        · rintro ⟨hc, -⟩
          exact absurd hc hp
      | succ k =>
        constructor
        · intro h
          rcases Option.map_eq_some'.mp h with ⟨i', hi', hsum⟩
          have hik : i' = k := by omega
          rw [hik] at hi'
          rcases (ih k).mp hi' with ⟨hocc, hmin⟩
          refine ⟨by simpa using hocc, ?_⟩
          intro j hj
          cases j with
          | zero => simpa using hp
          | succ m =>
            have := hmin m (by omega)
            simpa using this
        · rintro ⟨hocc, hmin⟩
          have ht : findSub pat t = some k := by
            refine (ih k).mpr ⟨by simpa using hocc, ?_⟩
            intro j hj
            have := hmin (j + 1) (by omega)
            simpa using this
          simp [ht]

/-- `findSub` returns `none` exactly when `pat` occurs nowhere. -/
theorem findSub_none_iff (pat : List ℕ) (hne : pat ≠ []) :
    ∀ l : List ℕ, findSub pat l = none ↔ ∀ i, ¬ pat <+: l.drop i := by
  intro l
  induction l with
  | nil =>
    simp [findSub, List.isPrefixOf_iff_prefix, hne, List.drop_nil]
  | cons a t ih =>
    by_cases hp : pat <+: (a :: t)
    · rw [findSub, if_pos (List.isPrefixOf_iff_prefix.mpr hp)]
      constructor
      · intro h; exact absurd h (by simp)
      · intro h
        exact absurd hp (by simpa using h 0)
    · rw [findSub, if_neg (by simpa [List.isPrefixOf_iff_prefix] using hp)]
      constructor
      · intro h i
        have ht : findSub pat t = none := by
          cases hft : findSub pat t with
          | none => rfl
          | some k => rw [hft] at h; simp at h
        cases i with
        | zero => simpa using hp
        | succ m => simpa using (ih.mp ht) m
      · intro h
        have ht : findSub pat t = none := by
          rw [ih]
          intro m
          simpa using h (m + 1)
        simp [ht]

/-- A pattern absent from every position up to the length of `l` is
absent everywhere (beyond the length the rest of `l` is empty). -/
theorem not_prefix_drop_of_bounded (pat l : List ℕ) (hne : pat ≠ [])
    (h : ∀ k, k < l.length → ¬ pat <+: l.drop k) :
    ∀ k, ¬ pat <+: l.drop k := by
  intro k
  by_cases hk : k < l.length
  · exact h k hk
  · rw [List.drop_eq_nil_of_le (by omega)]
    simp [hne]

/-! ## Detection theorems -/

/-- C4.  Detection exactness: for a buffer holding the sync word at
offset 0 and again at offset P, with P greater than the marker's
length, the first occurrence fitting in the first `searchChunkSize`
bytes, the second occurrence within the `maxFrameSizeGuess` bytes read
after the first marker, and no other occurrence in between,
`detect_frame_size` returns exactly `P`. -/
theorem detect_frame_size_exact
    (file syncWordBytes : List ℕ) (syncWordHex : String)
    (searchChunkSize maxFrameSizeGuess P : ℕ)
    (hdec : fromhex syncWordHex = some syncWordBytes)
    (hne : syncWordBytes ≠ [])
    (h0 : syncWordBytes <+: file)
    (hP : syncWordBytes <+: file.drop P)
    (hPlen : syncWordBytes.length < P)
    (hscs : syncWordBytes.length ≤ searchChunkSize)
    (hmfg : P ≤ maxFrameSizeGuess)
    (hbetween : ∀ k, k < P → 0 < k → ¬ syncWordBytes <+: file.drop k) :
    detect_frame_size file syncWordHex searchChunkSize maxFrameSizeGuess
      = Except.ok (some P) := by
  have hlen : 0 < syncWordBytes.length := List.length_pos.mpr hne
  have h1 : findSub syncWordBytes (file.take searchChunkSize) = some 0 := by
    rw [findSub_some_iff _ hne]
    refine ⟨by simpa using List.prefix_take_iff.mpr ⟨h0, hscs⟩, ?_⟩
    intro j hj
    omega
  have h2 : findSub syncWordBytes
      ((file.drop syncWordBytes.length).take maxFrameSizeGuess)
      = some (P - syncWordBytes.length) := by
    rw [findSub_some_iff _ hne]
    constructor
    · rw [List.drop_take, List.drop_drop]
      have hPP : syncWordBytes.length + (P - syncWordBytes.length) = P := by omega
      rw [hPP]
      exact List.prefix_take_iff.mpr ⟨hP, by omega⟩
    · intro j hj hcon
      rw [List.drop_take, List.drop_drop] at hcon
      have hpre : syncWordBytes <+: file.drop (syncWordBytes.length + j) :=
        (List.prefix_take_iff.mp hcon).1
      exact hbetween (syncWordBytes.length + j) (by omega) (by omega) hpre
  simp only [detect_frame_size, hdec, if_neg hne, h1, Nat.zero_add, h2]
  have hPP : P - syncWordBytes.length + syncWordBytes.length = P := by omega
  rw [hPP, if_neg (by omega)]

/-- Witness for C4 at a concrete input: sync word `"4711"` at offsets
0 and 4 of a 7-byte buffer. -/
theorem detect_frame_size_exact_witness :
    detect_frame_size [71, 17, 0, 0, 71, 17, 9] "4711" 4096 65536
      = Except.ok (some 4) :=
  detect_frame_size_exact [71, 17, 0, 0, 71, 17, 9] [71, 17] "4711" 4096 65536 4
    (by decide) (by decide) (by decide) (by decide) (by decide) (by decide)
    (by decide) (by decide)

/-- C7.  Invalid sync word: `detect_frame_size` raises exactly when the
hex string does not decode cleanly to bytes or decodes to zero bytes;
for every valid non-empty sync word the detection logic itself never
raises. -/
theorem detect_frame_size_error_iff (file : List ℕ) (syncWordHex : String)
    (searchChunkSize maxFrameSizeGuess : ℕ) :
    isError (detect_frame_size file syncWordHex searchChunkSize maxFrameSizeGuess) = true
      ↔ (fromhex syncWordHex = none ∨ fromhex syncWordHex = some []) := by
  cases hdec : fromhex syncWordHex with
  | none => simp [detect_frame_size, hdec, isError]
  | some sw =>
    by_cases hsw : sw = []
    · subst hsw
      simp [detect_frame_size, hdec, isError]
    · simp only [detect_frame_size, hdec, if_neg hsw]
      rcases h1 : findSub sw (file.take searchChunkSize) with - | i
      · simp [isError, hsw, h1]
      · rcases h2 : findSub sw ((file.drop (i + sw.length)).take maxFrameSizeGuess)
          with - | j
        · simp [isError, hsw, h1, h2]
        · cases j with
          | zero => simp [isError, hsw, h1, h2]
          | succ m => simp [isError, hsw, h1, h2]

/-- C8.  Detection absence is soft: when the sync word has a first
occurrence in the initial chunk but occurs nowhere in the window read
after it, or when the only occurrence found there is immediate (the
computed size would be ≤ the marker's length), `detect_frame_size`
returns the absence value `none` inside `Except.ok`, raising nothing. -/
theorem detect_frame_size_absence
    (file syncWordBytes : List ℕ) (syncWordHex : String)
    (searchChunkSize maxFrameSizeGuess iFirst : ℕ)
    (hdec : fromhex syncWordHex = some syncWordBytes)
    (hne : syncWordBytes ≠ [])
    (hFirst : syncWordBytes <+: (file.take searchChunkSize).drop iFirst)
    (hMin : ∀ j, j < iFirst → ¬ syncWordBytes <+: (file.take searchChunkSize).drop j)
    (hAfter :
      (∀ k, k < ((file.drop (iFirst + syncWordBytes.length)).take maxFrameSizeGuess).length →
        ¬ syncWordBytes <+:
          ((file.drop (iFirst + syncWordBytes.length)).take maxFrameSizeGuess).drop k)
      ∨ syncWordBytes <+: (file.drop (iFirst + syncWordBytes.length)).take maxFrameSizeGuess) :
    detect_frame_size file syncWordHex searchChunkSize maxFrameSizeGuess
      = Except.ok none := by
  have h1 : findSub syncWordBytes (file.take searchChunkSize) = some iFirst :=
    (findSub_some_iff _ hne _ _).mpr ⟨hFirst, hMin⟩
  rcases hAfter with habs | hdeg
  · have h2 : findSub syncWordBytes
        ((file.drop (iFirst + syncWordBytes.length)).take maxFrameSizeGuess) = none :=
      (findSub_none_iff _ hne _).mpr (not_prefix_drop_of_bounded _ _ hne habs)
    simp [detect_frame_size, hdec, if_neg hne, h1, h2]
  · have h2 : findSub syncWordBytes
        ((file.drop (iFirst + syncWordBytes.length)).take maxFrameSizeGuess) = some 0 := by
      rw [findSub_some_iff _ hne]
      refine ⟨by simpa using hdeg, ?_⟩
      intro j hj
      omega
    simp only [detect_frame_size, hdec, if_neg hne, h1, h2]
    rw [if_pos (by omega)]

/-- Witness for C8 at a concrete input: sync word `"4711"` occurring
only at offset 0 of a 5-byte buffer. -/
theorem detect_frame_size_absence_witness :
    detect_frame_size [71, 17, 1, 2, 3] "4711" 4096 65536 = Except.ok none :=
  detect_frame_size_absence [71, 17, 1, 2, 3] [71, 17] "4711" 4096 65536 0
    (by decide) (by decide) (by decide) (by decide) (Or.inl (by decide))

/-! ## Lemmas about the splitter state machine -/

theorem closeBulk_current (st : SplitState) : (closeBulk st).current = none := by
  cases hc : st.current <;> simp [closeBulk, hc]

theorem closeBulk_bulks_flatten (st : SplitState) :
    (closeBulk st).bulks.flatten = st.bulks.flatten ++ (st.current.getD []) := by
  cases hc : st.current <;> simp [closeBulk, hc]

theorem closeBulk_reports (st : SplitState) : (closeBulk st).reports = st.reports := by
  cases hc : st.current <;> simp [closeBulk, hc]

/-- Content step: one loop iteration appends exactly the frame just
read to the total sequence of frames held by the closed bulks plus the
open bulk. -/
theorem splitIter_content (B : ℚ) (total : ℕ) (st : SplitState) (f : List ℕ) :
    (splitIter B total st f).bulks.flatten ++ (splitIter B total st f).current.getD []
      = st.bulks.flatten ++ st.current.getD [] ++ [f] := by
  simp only [splitIter]
  by_cases hcond : st.current = none ∨ (st.currentSize + f.length : ℚ) > B
  · rw [if_pos hcond]
    by_cases ht : 0 < total <;>
      cases hc : st.current <;>
        simp [openNewBulk, closeBulk, writeFrame, reportProgress, hc, ht]
  · rw [if_neg hcond]
    rcases hcur : st.current with - | b
    · exact absurd hcur (not_or.mp hcond).1
    · by_cases ht : 0 < total <;>
        simp [writeFrame, reportProgress, hcur, ht]

/-- After one iteration a bulk is always open. -/
theorem splitIter_current_ne (B : ℚ) (total : ℕ) (st : SplitState) (f : List ℕ) :
    (splitIter B total st f).current ≠ none := by
  simp only [splitIter]
  by_cases hcond : st.current = none ∨ (st.currentSize + f.length : ℚ) > B
  · rw [if_pos hcond]
    by_cases ht : 0 < total <;>
      simp [openNewBulk, closeBulk, writeFrame, reportProgress, ht]
  · rw [if_neg hcond]
    rcases hcur : st.current with - | b
    · exact absurd hcur (not_or.mp hcond).1
    · by_cases ht : 0 < total <;>
        simp [writeFrame, reportProgress, hcur, ht]

theorem splitIter_bytesProcessed (B : ℚ) (total : ℕ) (st : SplitState) (f : List ℕ) :
    (splitIter B total st f).bytesProcessed = st.bytesProcessed + f.length := by
  simp only [splitIter]
  by_cases hcond : st.current = none ∨ (st.currentSize + f.length : ℚ) > B <;>
    by_cases ht : 0 < total <;>
      simp [hcond, openNewBulk, closeBulk_reports, writeFrame, reportProgress, ht,
        closeBulk]
  <;> cases hc : st.current <;> simp [closeBulk, hc]

theorem splitIter_reports (B : ℚ) (total : ℕ) (st : SplitState) (f : List ℕ) :
    (splitIter B total st f).reports
      = if 0 < total then
          st.reports ++ [progressPercentage (st.bytesProcessed + f.length) total]
        else st.reports := by
  simp only [splitIter]
  by_cases hcond : st.current = none ∨ (st.currentSize + f.length : ℚ) > B <;>
    by_cases ht : 0 < total <;>
      simp [hcond, ht, openNewBulk, writeFrame, reportProgress, closeBulk] <;>
        cases hc : st.current <;> simp [closeBulk, hc]

/-- The final state always has the open bulk closed. -/
theorem splitLoop_current (B : ℚ) (total : ℕ) (stop : ℕ → Bool) :
    ∀ (frames : List (List ℕ)) (n : ℕ) (st : SplitState),
      (splitLoop B total stop frames n st).current = none := by
  intro frames
  induction frames with
  | nil => intro n st; simp [splitLoop, closeBulk_current]
  | cons f rest ih =>
    intro n st
    simp only [splitLoop]
    by_cases h : stop n = true
    · simp [h, closeBulk_current]
    · simp only [h, if_false]
      exact ih (n + 1) (splitIter B total st f)

/-- Content invariant of the un-cancelled loop: the frames written to
the bulk files are the initial frames followed by every frame read. -/
theorem splitLoop_noStop_content (B : ℚ) (total : ℕ) :
    ∀ (frames : List (List ℕ)) (n : ℕ) (st : SplitState),
      (splitLoop B total (fun _ => false) frames n st).bulks.flatten
        = st.bulks.flatten ++ st.current.getD [] ++ frames := by
  intro frames
  induction frames with
  | nil =>
    intro n st
    simp [splitLoop, closeBulk_bulks_flatten]
  | cons f rest ih =>
    intro n st
    simp only [splitLoop, Bool.false_eq_true, if_false]
    rw [ih (n + 1) (splitIter B total st f), splitIter_content]
    simp

/-- Cancellation: while the stop flag stays false for the first `N`
polls, the loop behaves exactly like an un-cancelled loop run on the
first `N` frames only (the poll count is threaded, the state is not
otherwise consulted). -/
theorem splitLoop_stop_eq_take (B : ℚ) (total : ℕ) (stop : ℕ → Bool) :
    ∀ (frames : List (List ℕ)) (N n : ℕ) (st : SplitState),
      (∀ k, k < N → stop (n + k) = false) →
      (stop (n + N) = true ∨ frames.length ≤ N) →
      splitLoop B total stop frames n st
        = splitLoop B total (fun _ => false) (frames.take N) n st := by
  intro frames
  induction frames with
  | nil =>
    intro N n st h1 h2
    simp [splitLoop]
  | cons f rest ih =>
    intro N n st h1 h2
    cases N with
    | zero =>
      rcases h2 with h2 | h2
      · have hn : stop n = true := by simpa using h2
        simp [splitLoop, hn]
      · simp at h2
    | succ M =>
      have hn : stop n = false := by simpa using h1 0 (Nat.succ_pos M)
      simp only [List.take_succ_cons, splitLoop, hn, Bool.false_eq_true, if_false]
      refine ih M (n + 1) (splitIter B total st f) ?_ ?_
      · intro k hk
        have h := h1 (k + 1) (by omega)
        rw [show n + (k + 1) = n + 1 + k by omega] at h
        exact h
      · rcases h2 with h2 | h2
        · left
          rw [show n + 1 + M = n + (M + 1) by omega]
          exact h2
        · right
          simp only [List.length_cons] at h2
          omega

/-- A closed bulk satisfies the size discipline: within the cap, or a
single frame that alone exceeds the cap. -/
theorem closeBulk_size_bound (B : ℚ) (st : SplitState)
    (h1 : ∀ b ∈ st.bulks, (b.flatten.length : ℚ) ≤ B ∨
      ∃ f, b = [f] ∧ (f.length : ℚ) > B)
    (h2 : ∀ b, st.current = some b → b ≠ [] ∧
      st.currentSize = b.flatten.length ∧
      (2 ≤ b.length → (b.flatten.length : ℚ) ≤ B)) :
    ∀ b ∈ (closeBulk st).bulks, (b.flatten.length : ℚ) ≤ B ∨
      ∃ f, b = [f] ∧ (f.length : ℚ) > B := by
  intro b hb
  cases hc : st.current with
  | none =>
    rw [closeBulk, hc] at hb
    exact h1 b hb
  | some c =>
    rw [closeBulk, hc] at hb
    simp only [List.mem_append, List.mem_singleton] at hb
    rcases hb with hb | hb
    · exact h1 b hb
    · subst hb
      rcases h2 b hc with ⟨hne, -, hbig⟩
      rcases Nat.lt_or_ge b.length 2 with hlen | hlen
      · have hone : b.length = 1 := by
          have := List.length_pos.mpr hne
          omega
        rcases List.length_eq_one.mp hone with ⟨f, hf⟩
        rcases le_or_lt ((b.flatten.length : ℚ)) B with h | h
        · exact Or.inl h
        · refine Or.inr ⟨f, hf, ?_⟩
          have : b.flatten = f := by rw [hf]; simp
          rw [this] at h
          exact h
      · exact Or.inl (hbig hlen)

/-- One iteration preserves the size discipline of the closed bulks
and of the open bulk. -/
theorem splitIter_size_inv (B : ℚ) (total : ℕ) (st : SplitState) (f : List ℕ)
    (h1 : ∀ b ∈ st.bulks, (b.flatten.length : ℚ) ≤ B ∨
      ∃ g, b = [g] ∧ (g.length : ℚ) > B)
    (h2 : ∀ b, st.current = some b → b ≠ [] ∧
      st.currentSize = b.flatten.length ∧
      (2 ≤ b.length → (b.flatten.length : ℚ) ≤ B)) :
    (∀ b ∈ (splitIter B total st f).bulks, (b.flatten.length : ℚ) ≤ B ∨
      ∃ g, b = [g] ∧ (g.length : ℚ) > B) ∧
    (∀ b, (splitIter B total st f).current = some b → b ≠ [] ∧
      (splitIter B total st f).currentSize = b.flatten.length ∧
      (2 ≤ b.length → (b.flatten.length : ℚ) ≤ B)) := by
  simp only [splitIter]
  by_cases hcond : st.current = none ∨ (st.currentSize + f.length : ℚ) > B
  · rw [if_pos hcond]
    have hbulks : ∀ b ∈ (writeFrame (openNewBulk st) f).bulks,
        (b.flatten.length : ℚ) ≤ B ∨ ∃ g, b = [g] ∧ (g.length : ℚ) > B := by
      intro b hb
      simp only [writeFrame, openNewBulk] at hb
      exact closeBulk_size_bound B st h1 h2 b hb
    have hcur : ∀ b, (writeFrame (openNewBulk st) f).current = some b → b ≠ [] ∧
        (writeFrame (openNewBulk st) f).currentSize = b.flatten.length ∧
        (2 ≤ b.length → (b.flatten.length : ℚ) ≤ B) := by
      intro b hb
      simp only [writeFrame, openNewBulk, Option.map_some'] at hb
      simp only [Option.some.injEq] at hb
      subst hb
      refine ⟨by simp, by simp [writeFrame, openNewBulk], by intro h; simp at h⟩
    by_cases ht : 0 < total <;> simp only [ht, if_true, if_false] <;>
      exact ⟨fun b hb => hbulks b (by simpa [reportProgress] using hb),
        fun b hb => by
          have := hcur b (by simpa [reportProgress] using hb)
          simpa [reportProgress] using this⟩
  · rw [if_neg hcond]
    rcases hcur : st.current with - | c
    · exact absurd hcur (not_or.mp hcond).1
    rcases h2 c hcur with ⟨-, hsize, -⟩
    have hle : (st.currentSize + f.length : ℚ) ≤ B := by
      rcases not_or.mp hcond with ⟨-, hgt⟩
      exact le_of_not_lt hgt
    have hbulks : ∀ b ∈ (writeFrame st f).bulks,
        (b.flatten.length : ℚ) ≤ B ∨ ∃ g, b = [g] ∧ (g.length : ℚ) > B := by
      intro b hb
      simp only [writeFrame] at hb
      exact h1 b hb
    have hcur2 : ∀ b, (writeFrame st f).current = some b → b ≠ [] ∧
        (writeFrame st f).currentSize = b.flatten.length ∧
        (2 ≤ b.length → (b.flatten.length : ℚ) ≤ B) := by
      intro b hb
      simp only [writeFrame, hcur, Option.map_some', Option.some.injEq] at hb
      subst hb
      refine ⟨by simp, ?_, ?_⟩
      · simp [writeFrame, hsize]
      · intro _
        have : ((c ++ [f]).flatten.length : ℚ) = (st.currentSize + f.length : ℚ) := by
          simp [hsize]
        rw [this]
        exact hle
    by_cases ht : 0 < total <;> simp only [ht, if_true, if_false] <;>
      exact ⟨fun b hb => hbulks b (by simpa [reportProgress] using hb),
        fun b hb => by
          have := hcur2 b (by simpa [reportProgress] using hb)
          simpa [reportProgress] using this⟩

/-- Size invariant of the whole loop, with or without cancellation. -/
theorem splitLoop_size_bound (B : ℚ) (total : ℕ) (stop : ℕ → Bool) :
    ∀ (frames : List (List ℕ)) (n : ℕ) (st : SplitState),
      (∀ b ∈ st.bulks, (b.flatten.length : ℚ) ≤ B ∨
        ∃ g, b = [g] ∧ (g.length : ℚ) > B) →
      (∀ b, st.current = some b → b ≠ [] ∧
        st.currentSize = b.flatten.length ∧
        (2 ≤ b.length → (b.flatten.length : ℚ) ≤ B)) →
      ∀ b ∈ (splitLoop B total stop frames n st).bulks,
        (b.flatten.length : ℚ) ≤ B ∨ ∃ g, b = [g] ∧ (g.length : ℚ) > B := by
  intro frames
  induction frames with
  | nil =>
    intro n st h1 h2
    simpa [splitLoop] using closeBulk_size_bound B st h1 h2
  | cons f rest ih =>
    intro n st h1 h2
    simp only [splitLoop]
    by_cases h : stop n = true
    · simpa [h] using closeBulk_size_bound B st h1 h2
    · simp only [h, if_false]
      rcases splitIter_size_inv B total st f h1 h2 with ⟨hb, hc⟩
      exact ih (n + 1) (splitIter B total st f) hb hc

/-- Progress reporting of the un-cancelled loop: one report per frame,
carrying the running byte total after that frame's write (and none at
all when the total size is zero). -/
theorem splitLoop_noStop_reports (B : ℚ) (total : ℕ) :
    ∀ (frames : List (List ℕ)) (n : ℕ) (st : SplitState),
      (splitLoop B total (fun _ => false) frames n st).reports
        = st.reports ++
            (if 0 < total then
              (cumFrom st.bytesProcessed (frames.map List.length)).map
                (fun bp => progressPercentage bp total)
            else []) := by
  intro frames
  induction frames with
  | nil =>
    intro n st
    simp [splitLoop, closeBulk_reports, cumFrom]
  | cons f rest ih =>
    intro n st
    simp only [splitLoop, Bool.false_eq_true, if_false]
    rw [ih (n + 1) (splitIter B total st f), splitIter_reports,
      splitIter_bytesProcessed]
    by_cases ht : 0 < total
    · simp [ht, cumFrom]
    · simp [ht]

/-- The scan loop of reconstruction: with the files at `idx, idx+1, …,
idx+m-1` present (with contents `d 0, …, d (m-1)`) and the file at
`idx+m` missing, enough fuel collects exactly those contents in index
order. -/
theorem collectBulks_spec (fs : ℕ → Option (List ℕ)) :
    ∀ (m : ℕ) (d : ℕ → List ℕ) (idx fuel : ℕ),
      (∀ k, k < m → fs (idx + k) = some (d k)) →
      fs (idx + m) = none →
      m + 1 ≤ fuel →
      collectBulks fs fuel idx = (List.range m).map d := by
  intro m
  induction m with
  | zero =>
    intro d idx fuel _ h2 hf
    cases fuel with
    | zero => omega
    | succ g =>
      rw [Nat.add_zero] at h2
      simp [collectBulks, h2]
  | succ M ih =>
    intro d idx fuel h1 h2 hf
    cases fuel with
    | zero => omega
    | succ g =>
      have h0 : fs idx = some (d 0) := by
        have := h1 0 (Nat.succ_pos M)
        rwa [Nat.add_zero] at this
      simp only [collectBulks, h0]
      rw [ih (fun k => d (k + 1)) (idx + 1) g ?_ ?_ ?_]
      · rw [List.range_succ_eq_map]
        simp [Function.comp]
      · intro k hk
        have h := h1 (k + 1) (by omega)
        rwa [show idx + (k + 1) = idx + 1 + k by omega] at h
      · rwa [show idx + 1 + M = idx + (M + 1) by omega]
      · omega

theorem closeBulk_bytesProcessed (st : SplitState) :
    (closeBulk st).bytesProcessed = st.bytesProcessed := by
  cases hc : st.current <;> simp [closeBulk, hc]

theorem closeBulk_bulkCount (st : SplitState) :
    (closeBulk st).bulkCount = st.bulkCount := by
  cases hc : st.current <;> simp [closeBulk, hc]

/-- Explicit result of one iteration in the roll-over case. -/
theorem splitIter_eval_roll (B : ℚ) (total : ℕ) (st : SplitState) (f : List ℕ)
    (h : st.current = none ∨ (st.currentSize + f.length : ℚ) > B) :
    splitIter B total st f =
      { bulks := (closeBulk st).bulks
        current := some [f]
        currentSize := f.length
        bytesProcessed := st.bytesProcessed + f.length
        reports :=
          if 0 < total then
            st.reports ++ [progressPercentage (st.bytesProcessed + f.length) total]
          else st.reports
        bulkCount := st.bulkCount + 1 } := by
  simp only [splitIter, if_pos h]
  by_cases ht : 0 < total <;>
    simp [ht, writeFrame, openNewBulk, reportProgress, closeBulk_reports,
      closeBulk_bytesProcessed]

/-- Explicit result of one iteration in the append case. -/
theorem splitIter_eval_keep (B : ℚ) (total : ℕ) (st : SplitState) (f : List ℕ)
    (b : List (List ℕ)) (hcur : st.current = some b)
    (hle : ¬ ((st.currentSize + f.length : ℚ) > B)) :
    splitIter B total st f =
      { bulks := st.bulks
        current := some (b ++ [f])
        currentSize := st.currentSize + f.length
        bytesProcessed := st.bytesProcessed + f.length
        reports :=
          if 0 < total then
            st.reports ++ [progressPercentage (st.bytesProcessed + f.length) total]
          else st.reports
        bulkCount := st.bulkCount } := by
  have hcond : ¬ (st.current = none ∨ (st.currentSize + f.length : ℚ) > B) := by
    simp [hcur, hle]
  simp only [splitIter, if_neg hcond]
  by_cases ht : 0 < total <;>
    simp [ht, writeFrame, reportProgress, hcur]

theorem splitLoop_nil (B : ℚ) (total : ℕ) (stop : ℕ → Bool) (n : ℕ)
    (st : SplitState) : splitLoop B total stop [] n st = closeBulk st := rfl

theorem splitLoop_cons_noStop (B : ℚ) (total : ℕ) (f : List ℕ)
    (rest : List (List ℕ)) (n : ℕ) (st : SplitState) :
    splitLoop B total (fun _ => false) (f :: rest) n st
      = splitLoop B total (fun _ => false) rest (n + 1) (splitIter B total st f) := by
  simp [splitLoop]

theorem cumFrom_length (acc : ℕ) (xs : List ℕ) :
    (cumFrom acc xs).length = xs.length := by
  induction xs generalizing acc with
  | nil => rfl
  | cons x t ih => simp [cumFrom, ih]

/-- Flattening bulk byte contents equals flattening all frames. -/
theorem flatten_map_flatten (L : List (List (List ℕ))) :
    (L.map List.flatten).flatten = L.flatten.flatten := by
  induction L with
  | nil => rfl
  | cons a t ih => simp [ih]

theorem range_map_getD (l : List (List (List ℕ))) :
    (List.range l.length).map (fun k => (l.getD k []).flatten)
      = l.map List.flatten := by
  induction l with
  | nil => rfl
  | cons a t ih =>
    rw [List.length_cons, List.range_succ_eq_map, List.map_cons, List.map_map]
    simp only [List.getD_eq_getElem?_getD] at ih
    have hshift : List.map ((fun k => (((a :: t)[k]?).getD []).flatten) ∘ Nat.succ)
        (List.range t.length)
        = List.map (fun k => ((t[k]?).getD []).flatten) (List.range t.length) := by
      refine List.map_congr_left ?_
      intro k _
      simp [Function.comp]
    simp only [List.getD_eq_getElem?_getD, hshift, ih]
    simp

/-- The un-cancelled loop is the fold of the iteration body over the
frames, followed by the final close. -/
theorem splitLoop_noStop_eq_foldl (B : ℚ) (total : ℕ) :
    ∀ (frames : List (List ℕ)) (n : ℕ) (st : SplitState),
      splitLoop B total (fun _ => false) frames n st
        = closeBulk (List.foldl (splitIter B total) st frames) := by
  intro frames
  induction frames with
  | nil => intro n st; rfl
  | cons f rest ih =>
    intro n st
    rw [splitLoop_cons_noStop, ih (n + 1) (splitIter B total st f), List.foldl_cons]

/-! ## Lemmas about the binary64 progress arithmetic -/

/-- Rounding an integer changes nothing. -/
theorem roundHalfEven_intCast (n : ℤ) : roundHalfEven (n : ℚ) = n := by
  norm_num [roundHalfEven]

/-- The binary exponent of a sandwiched positive rational. -/
theorem int_log_eq (q : ℚ) (e : ℤ) (hq : 0 < q)
    (h1 : (2:ℚ) ^ e ≤ q) (h2 : q < (2:ℚ) ^ (e + 1)) : Int.log 2 q = e := by
  have hle : e ≤ Int.log 2 q := by
    have hm := @Int.log_mono_right ℚ _ _ 2 ((2:ℚ) ^ e) q
      (zpow_pos (by norm_num : (0:ℚ) < 2) e) h1
    have hz := @Int.log_zpow ℚ _ _ 2 (by norm_num) e
    norm_num at hz
    rwa [hz] at hm
  have hge : Int.log 2 q ≤ e := by
    by_contra hcon
    push_neg at hcon
    have hx : (2:ℚ) ^ (e + 1) ≤ (2:ℚ) ^ Int.log 2 q :=
      zpow_le_zpow_right₀ one_le_two (show e + 1 ≤ Int.log 2 q by omega)
    have hself := @Int.zpow_log_le_self ℚ _ _ 2 q (by norm_num) hq
    norm_num at hself
    exact absurd h2 (not_lt.mpr (hx.trans hself))
  omega

/-- A value already representable in binary64 (an integer multiple of
its own ulp) rounds to itself. -/
theorem binary64Round_eq_self (q : ℚ) (e : ℤ) (n : ℤ)
    (hq : 0 < q) (h1 : (2:ℚ) ^ e ≤ q) (h2 : q < (2:ℚ) ^ (e + 1))
    (he : -1022 ≤ e) (hn : q = (n : ℚ) * (2:ℚ) ^ (e - 52)) :
    binary64Round q = q := by
  have hlog : Int.log 2 q = e := int_log_eq q e hq h1 h2
  simp only [binary64Round, if_neg (not_le.mpr hq), hlog, max_eq_left he]
  have hne : ((2:ℚ) ^ (e - 52)) ≠ 0 := zpow_ne_zero _ (by norm_num)
  have hdiv : q / (2:ℚ) ^ (e - 52) = (n : ℚ) := by
    rw [hn, mul_div_cancel_right₀ _ hne]
  rw [hdiv, roundHalfEven_intCast, ← hn]

/-! ## Claim theorems for the splitter -/

/-- C2.  Size bound: every bulk file produced by `split_binary_file`
has total size at most `bulk_size_bytes`, except a bulk holding exactly
one frame whose own length exceeds the cap (such a frame occupies a
bulk alone).  Holds for any stop flag, so also under cancellation. -/
theorem split_size_bound (S : List ℕ) (bulkSizeGb : ℚ) (F : ℕ)
    (stop : ℕ → Bool) (_hF : 1 ≤ F) :
    ∀ b ∈ (split_binary_file S bulkSizeGb F stop).bulks,
      (b.flatten.length : ℚ) ≤ bulkSizeBytes bulkSizeGb ∨
      ∃ g, b = [g] ∧ (g.length : ℚ) > bulkSizeBytes bulkSizeGb := by
  apply splitLoop_size_bound
  · intro b hb
    simp [startState] at hb
  · intro b hb
    simp [startState] at hb

/-- Witness for C2: splitting the single byte `[5]` with frame size 1
and a 1 GB cap produces the one bulk `[[5]]`, which satisfies the size
discipline. -/
theorem split_size_bound_witness :
    ((([[5]] : List (List ℕ)).flatten.length : ℚ) ≤ bulkSizeBytes 1 ∨
      ∃ g, ([[5]] : List (List ℕ)) = [g] ∧ (g.length : ℚ) > bulkSizeBytes 1) := by
  have heval : (split_binary_file [5] 1 1 (fun _ => false)).bulks = [[[5]]] := by
    have hB : bulkSizeBytes 1 = 1073741824 := by norm_num [bulkSizeBytes]
    have hch : chunkFrames 1 [5] = [[5]] := rfl
    have hlen : ([5] : List ℕ).length = 1 := rfl
    simp only [split_binary_file, hB, hch, hlen]
    rw [splitLoop_cons_noStop, splitIter_eval_roll _ _ startState [5] (Or.inl rfl)]
    norm_num [startState, closeBulk]
    rw [splitLoop_nil]
    norm_num [closeBulk]
  exact split_size_bound [5] 1 1 (fun _ => false) (by decide) [[5]]
    (by rw [heval]; decide)

/-- C3 counterexample: with 10 bytes, frame size 4 and a cap of
9 bytes (9 / 2^30 GB), the trailing partial chunk `[8, 9]` is NOT
appended to the bulk that was open when it was read (that bulk held
`[0,1,2,3]` and `[4,5,6,7]` at 8 bytes); it opens a new bulk instead,
because 8 + 2 would exceed the cap.  No bulk contains both the last
full frame and the trailing partial chunk, refuting the claim that the
trailing partial chunk is always appended to the currently open
bulk. -/
theorem split_partial_frame_counterexample :
    (split_binary_file [0,1,2,3,4,5,6,7,8,9] (9 / 1073741824) 4
        (fun _ => false)).bulks
      = [[[0,1,2,3],[4,5,6,7]],[[8,9]]]
    ∧ ¬ ∃ b ∈ (split_binary_file [0,1,2,3,4,5,6,7,8,9] (9 / 1073741824) 4
        (fun _ => false)).bulks, [4,5,6,7] ∈ b ∧ [8,9] ∈ b := by
  have heval : (split_binary_file [0,1,2,3,4,5,6,7,8,9] (9 / 1073741824) 4
      (fun _ => false)).bulks = [[[0,1,2,3],[4,5,6,7]],[[8,9]]] := by
    have hB : bulkSizeBytes (9 / 1073741824) = 9 := by norm_num [bulkSizeBytes]
    have hch : chunkFrames 4 [0,1,2,3,4,5,6,7,8,9]
        = [[0,1,2,3],[4,5,6,7],[8,9]] := rfl
    have hlen : ([0,1,2,3,4,5,6,7,8,9] : List ℕ).length = 10 := rfl
    simp only [split_binary_file, hB, hch, hlen]
    rw [splitLoop_cons_noStop,
      splitIter_eval_roll 9 10 startState [0,1,2,3] (Or.inl rfl)]
    norm_num [startState, closeBulk]
    rw [splitLoop_cons_noStop,
      splitIter_eval_keep 9 10 _ [4,5,6,7] [[0,1,2,3]] rfl (by norm_num)]
    norm_num
    rw [splitLoop_cons_noStop,
      splitIter_eval_roll 9 10 _ [8,9] (Or.inr (by norm_num))]
    norm_num [closeBulk]
    rw [splitLoop_nil]
    norm_num [closeBulk]
  refine ⟨heval, ?_⟩
  rw [heval]
  decide

/-- C3 amended.  Frame atomicity: every bulk produced by
`split_binary_file` is a concatenation of consecutive whole frames of
the source (reads of exactly `F` bytes in order, the final read
possibly shorter), so no bulk boundary falls inside a frame; and the
trailing chunk — in particular the partial one at end-of-stream — is
written whole, appended to the currently open bulk exactly when it
fits under the cap and otherwise placed in a newly opened final bulk
that holds it alone.  The placement conjuncts quantify over the
decomposition of the frame sequence into its initial reads `init` and
trailing read `last`, with `stMid` the loop state after processing
`init` (before the final close). -/
theorem split_frame_atomicity (S : List ℕ) (bulkSizeGb : ℚ) (F : ℕ)
    (hF : F ≠ 0) :
    ((split_binary_file S bulkSizeGb F (fun _ => false)).bulks).flatten
        = chunkFrames F S
    ∧ (∀ fr ∈ (chunkFrames F S).dropLast, fr.length = F)
    ∧ (∀ fr ∈ chunkFrames F S, fr.length ≤ F ∧ fr ≠ [])
    ∧ (chunkFrames F S).flatten = S
    ∧ ∀ (init : List (List ℕ)) (last : List ℕ) (stMid : SplitState),
        chunkFrames F S = init ++ [last] →
        stMid = List.foldl (splitIter (bulkSizeBytes bulkSizeGb) S.length)
          startState init →
        (∀ b, stMid.current = some b →
          (stMid.currentSize + last.length : ℚ) ≤ bulkSizeBytes bulkSizeGb →
          (split_binary_file S bulkSizeGb F (fun _ => false)).bulks
            = stMid.bulks ++ [b ++ [last]])
        ∧ ((stMid.current = none ∨
            (stMid.currentSize + last.length : ℚ) > bulkSizeBytes bulkSizeGb) →
          (split_binary_file S bulkSizeGb F (fun _ => false)).bulks
            = (closeBulk stMid).bulks ++ [[last]]) := by
  refine ⟨?_, chunkFrames_dropLast F hF S, chunkFrames_mem F hF S,
    chunkFrames_flatten F hF S, ?_⟩
  · simp only [split_binary_file]
    rw [splitLoop_noStop_content]
    simp [startState]
  · intro init last stMid hsplit hmid
    have hloop : split_binary_file S bulkSizeGb F (fun _ => false)
        = closeBulk (splitIter (bulkSizeBytes bulkSizeGb) S.length stMid last) := by
      simp only [split_binary_file]
      rw [splitLoop_noStop_eq_foldl, hsplit, List.foldl_append, ← hmid,
        List.foldl_cons, List.foldl_nil]
    constructor
    · intro b hcur hle
      rw [hloop,
        splitIter_eval_keep _ _ stMid last b hcur (not_lt.mpr hle)]
      simp [closeBulk]
    · intro hcond
      rw [hloop, splitIter_eval_roll _ _ stMid last hcond]
      simp [closeBulk]

/-- Witness for C3 (amended) at the counterexample input: the frames
written across the bulk set are exactly the frame partition, and the
trailing partial `[8,9]`, which does not fit under the 9-byte cap next
to the 8 bytes already in the open bulk, lands in a newly opened final
bulk alone. -/
theorem split_frame_atomicity_witness :
    ((split_binary_file [0,1,2,3,4,5,6,7,8,9] (9 / 1073741824) 4
        (fun _ => false)).bulks).flatten
      = chunkFrames 4 [0,1,2,3,4,5,6,7,8,9]
    ∧ (split_binary_file [0,1,2,3,4,5,6,7,8,9] (9 / 1073741824) 4
        (fun _ => false)).bulks
      = (closeBulk (List.foldl
          (splitIter (bulkSizeBytes (9 / 1073741824)) 10) startState
          [[0,1,2,3],[4,5,6,7]])).bulks ++ [[[8,9]]] := by
  have h := split_frame_atomicity [0,1,2,3,4,5,6,7,8,9] (9 / 1073741824) 4
    (by decide)
  rw [show ([0,1,2,3,4,5,6,7,8,9] : List ℕ).length = 10 from rfl] at h
  refine ⟨h.1, ?_⟩
  have heval : List.foldl (splitIter (bulkSizeBytes (9 / 1073741824)) 10)
      startState [[0,1,2,3],[4,5,6,7]]
      = { bulks := []
          current := some [[0,1,2,3],[4,5,6,7]]
          currentSize := 8
          bytesProcessed := 8
          reports := [progressPercentage 4 10, progressPercentage 8 10]
          bulkCount := 2 } := by
    have hB : bulkSizeBytes (9 / 1073741824) = 9 := by norm_num [bulkSizeBytes]
    rw [hB]
    simp only [List.foldl_cons, List.foldl_nil]
    rw [splitIter_eval_roll 9 10 startState [0,1,2,3] (Or.inl rfl)]
    norm_num [startState, closeBulk]
    rw [splitIter_eval_keep 9 10 _ [4,5,6,7] [[0,1,2,3]] rfl (by norm_num)]
    norm_num
  refine (h.2.2.2.2 [[0,1,2,3],[4,5,6,7]] [8,9] _ rfl rfl).2 ?_
  rw [heval]
  right
  norm_num [bulkSizeBytes]

/-- C5.  Cancellation: when the stop flag first signals at the poll
made after exactly `N` frames have been written, the run is
state-identical to an un-cancelled run over the first `N` frames only:
the bulk files hold exactly those `N` frames (no further frame is read
or written, no further bulk file is created) and the open bulk is
closed.  The embedding is a total function, so the call returns
normally. -/
theorem split_cancellation (S : List ℕ) (bulkSizeGb : ℚ) (F N : ℕ)
    (stop : ℕ → Bool)
    (hlt : ∀ n, n < N → stop n = false)
    (hN : stop N = true) :
    split_binary_file S bulkSizeGb F stop
        = splitLoop (bulkSizeBytes bulkSizeGb) S.length (fun _ => false)
            ((chunkFrames F S).take N) 0 startState
    ∧ (split_binary_file S bulkSizeGb F stop).bulks.flatten
        = (chunkFrames F S).take N
    ∧ ((split_binary_file S bulkSizeGb F stop).bulks.map List.flatten).flatten
        = ((chunkFrames F S).take N).flatten
    ∧ (split_binary_file S bulkSizeGb F stop).current = none := by
  have heq : split_binary_file S bulkSizeGb F stop
      = splitLoop (bulkSizeBytes bulkSizeGb) S.length (fun _ => false)
          ((chunkFrames F S).take N) 0 startState := by
    simp only [split_binary_file]
    apply splitLoop_stop_eq_take
    · intro k hk
      simpa using hlt k hk
    · left
      simpa using hN
  have hframes : (split_binary_file S bulkSizeGb F stop).bulks.flatten
      = (chunkFrames F S).take N := by
    rw [heq, splitLoop_noStop_content]
    simp [startState]
  refine ⟨heq, hframes, ?_, ?_⟩
  · rw [flatten_map_flatten, hframes]
  · rw [heq]
    exact splitLoop_current _ _ _ _ _ _

/-- Witness for C5: stopping after one frame of `[1,2,3,4,5]` (frame
size 2) leaves exactly the first frame's bytes in the bulk set. -/
theorem split_cancellation_witness :
    (split_binary_file [1,2,3,4,5] 1 2 (fun n => decide (1 ≤ n))).bulks.flatten
      = (chunkFrames 2 [1,2,3,4,5]).take 1 :=
  (split_cancellation [1,2,3,4,5] 1 2 1 (fun n => decide (1 ≤ n))
    (by decide) (by decide)).2.1

/-- C9.  Progress reporting: on a source of positive size the sink is
invoked exactly once after each frame write with
`int((bytes_processed / total_size) * 100)` — `progressPercentage`
is literally `(Rat.floor ((bp : ℚ) / total * 100)).toNat`, the floor
being `int` truncation of the non-negative quotient — where the byte
totals run over the cumulative frame lengths; on an empty source the
sink is never invoked; in every case there is exactly one report per
frame, never more. -/
theorem split_progress (S : List ℕ) (bulkSizeGb : ℚ) (F : ℕ) :
    (0 < S.length →
      (split_binary_file S bulkSizeGb F (fun _ => false)).reports
        = (cumFrom 0 ((chunkFrames F S).map List.length)).map
            (fun bp => progressPercentage bp S.length))
    ∧ (S.length = 0 →
      (split_binary_file S bulkSizeGb F (fun _ => false)).reports = [])
    ∧ (split_binary_file S bulkSizeGb F (fun _ => false)).reports.length
        = (chunkFrames F S).length := by
  have h := splitLoop_noStop_reports (bulkSizeBytes bulkSizeGb) S.length
    (chunkFrames F S) 0 startState
  refine ⟨?_, ?_, ?_⟩
  · intro ht
    simp only [split_binary_file]
    rw [h]
    simp [startState, ht]
  · intro ht
    have hS : S = [] := List.length_eq_zero.mp ht
    subst hS
    rfl
  · by_cases ht : 0 < S.length
    · simp only [split_binary_file]
      rw [h]
      simp [startState, ht, cumFrom_length]
    · have hS : S = [] := List.length_eq_zero.mp (by omega)
      subst hS
      rfl

/-- Witness for C9: splitting 4 bytes with frame size 2 reports 50
percent after the first frame (2 of 4 bytes, `(2/4)*100 = 50.0`
exactly in binary64) and 100 percent after the second. -/
theorem split_progress_witness :
    (split_binary_file [1,2,3,4] 1 2 (fun _ => false)).reports = [50, 100] := by
  rw [(split_progress [1,2,3,4] 1 2).1 (by decide)]
  have hch : chunkFrames 2 [1,2,3,4] = [[1,2],[3,4]] := rfl
  rw [hch]
  have e1 : binary64Round ((1 : ℚ) / 2) = 1 / 2 :=
    binary64Round_eq_self (1/2) (-1) 4503599627370496
      (by norm_num) (by norm_num) (by norm_num) (by norm_num) (by norm_num)
  have e2 : binary64Round (50 : ℚ) = 50 :=
    binary64Round_eq_self 50 5 7036874417766400
      (by norm_num) (by norm_num) (by norm_num) (by norm_num) (by norm_num)
  have e3 : binary64Round (1 : ℚ) = 1 :=
    binary64Round_eq_self 1 0 4503599627370496
      (by norm_num) (by norm_num) (by norm_num) (by norm_num) (by norm_num)
  have e4 : binary64Round (100 : ℚ) = 100 :=
    binary64Round_eq_self 100 6 7036874417766400
      (by norm_num) (by norm_num) (by norm_num) (by norm_num) (by norm_num)
  simp only [cumFrom, List.map_cons, List.map_nil, List.length_cons, List.length_nil,
    progressPercentage]
  norm_num [e1, e2, e3, e4]
  decide

/-! ## Claim theorems for reconstruction and the round trip -/

/-- C1 counterexample: for the empty source, splitting produces zero
bulk files and reconstruction takes the "No bulk files found to
reconstruct." branch, writing no output file at all (`none`), so the
round trip does not write a file with bytes identical to the (empty)
source. -/
theorem round_trip_empty_counterexample :
    (split_binary_file [] 1 1 (fun _ => false)).bulks = []
    ∧ reconstruct_binary_file
        (fsOfBulks (split_binary_file [] 1 1 (fun _ => false)).bulks) 2 = none := by
  have hempty : (split_binary_file [] 1 1 (fun _ => false)).bulks = [] := rfl
  refine ⟨hempty, ?_⟩
  rw [hempty]
  rfl

/-- C1 amended.  Round trip: for every non-empty byte sequence, every
frame size F ≥ 1 and every bulk cap > 0, reconstructing the bulk set
written by the splitter (the directory view `fsOfBulks`, i.e. the same
prefix and directory) writes an output whose bytes are identical to
the source, whether or not its length is a multiple of F; for the
empty source no bulk file is produced and reconstruction writes
nothing. -/
theorem split_round_trip (S : List ℕ) (bulkSizeGb : ℚ) (F : ℕ) (fuel : ℕ)
    (_hgb : 0 < bulkSizeGb) (hF : F ≠ 0) (hS : S ≠ [])
    (hfuel : (split_binary_file S bulkSizeGb F (fun _ => false)).bulks.length + 1 ≤ fuel) :
    reconstruct_binary_file
        (fsOfBulks (split_binary_file S bulkSizeGb F (fun _ => false)).bulks) fuel
      = some S := by
  set bulks := (split_binary_file S bulkSizeGb F (fun _ => false)).bulks with hbulks
  have hcontent : bulks.flatten = chunkFrames F S := by
    rw [hbulks]
    simp only [split_binary_file]
    rw [splitLoop_noStop_content]
    simp [startState]
  have hbytes : (bulks.map List.flatten).flatten = S := by
    rw [flatten_map_flatten, hcontent, chunkFrames_flatten F hF]
  have hcollect : collectBulks (fsOfBulks bulks) fuel 1 = bulks.map List.flatten := by
    have hspec := collectBulks_spec (fsOfBulks bulks) bulks.length
      (fun k => (bulks.getD k []).flatten) 1 fuel ?_ ?_ hfuel
    · rw [hspec, range_map_getD]
    · intro k hk
      simp only [fsOfBulks, if_pos (by omega : 1 ≤ 1 + k),
        show 1 + k - 1 = k by omega]
      simp [List.getElem?_eq_getElem hk]
    · simp only [fsOfBulks, if_pos (by omega : 1 ≤ 1 + bulks.length),
        show 1 + bulks.length - 1 = bulks.length by omega]
      simp
  simp only [reconstruct_binary_file, hcollect, hbytes]
  rw [if_neg hS]

/-- Witness for C1 (amended): 3 bytes, frame size 2, 1 GB cap — the
round trip reproduces the source exactly. -/
theorem split_round_trip_witness :
    reconstruct_binary_file
        (fsOfBulks (split_binary_file [1,2,3] 1 2 (fun _ => false)).bulks) 2
      = some [1,2,3] := by
  have heval : (split_binary_file [1,2,3] 1 2 (fun _ => false)).bulks
      = [[[1,2],[3]]] := by
    have hB : bulkSizeBytes 1 = 1073741824 := by norm_num [bulkSizeBytes]
    have hch : chunkFrames 2 [1,2,3] = [[1,2],[3]] := rfl
    have hlen : ([1,2,3] : List ℕ).length = 3 := rfl
    simp only [split_binary_file, hB, hch, hlen]
    rw [splitLoop_cons_noStop,
      splitIter_eval_roll _ _ startState [1,2] (Or.inl rfl)]
    norm_num [startState, closeBulk]
    rw [splitLoop_cons_noStop,
      splitIter_eval_keep _ _ _ [3] [[1,2]] rfl (by norm_num [bulkSizeBytes])]
    norm_num
    rw [splitLoop_nil]
    norm_num [closeBulk]
  exact split_round_trip [1,2,3] 1 2 2 (by norm_num) (by decide) (by decide)
    (by rw [heval]; decide)

/-- C6 counterexample: the bulk file with index 1 exists but is empty
(and index 2 is missing).  One bulk file was found, yet
`reconstruct_binary_file` takes the "No bulk files found to
reconstruct." branch and writes nothing (`none`), because the source
tests the truthiness of the accumulated bytearray
(`if reconstructed_data:`), not whether any file was found. -/
theorem reconstruct_empty_bulk_counterexample :
    (fun i => if i = 1 then some ([] : List ℕ) else none) 1 = some []
    ∧ reconstruct_binary_file (fun i => if i = 1 then some [] else none) 2
        = none := by
  constructor
  · rfl
  · rfl

/-- C6 amended.  Reconstruction scan and write condition:
`reconstruct_binary_file` scans indices starting at 1 and reads
`{prefix}_{index}.bin` until the first missing index (a gap silently
truncates the scan, no error); it writes the concatenation of the
found contents, in index order, exactly when the accumulated bytes are
non-empty, and when the accumulation is empty — no bulk file found, or
every found bulk empty — it performs no write and reports that no bulk
files were found. -/
theorem reconstruct_scan_and_write (fs : ℕ → Option (List ℕ))
    (m fuel : ℕ) (d : ℕ → List ℕ)
    (hpresent : ∀ k, k < m → fs (1 + k) = some (d k))
    (hmissing : fs (1 + m) = none)
    (hfuel : m + 1 ≤ fuel) :
    collectBulks fs fuel 1 = (List.range m).map d
    ∧ reconstruct_binary_file fs fuel
        = (if ((List.range m).map d).flatten = [] then none
           else some ((List.range m).map d).flatten) := by
  have h := collectBulks_spec fs m d 1 fuel hpresent hmissing hfuel
  exact ⟨h, by simp only [reconstruct_binary_file, h]⟩

/-- Witness for C6 (amended): one 1-byte bulk at index 1, nothing at
index 2 — the scan collects it and reconstruction writes it. -/
theorem reconstruct_scan_and_write_witness :
    collectBulks (fun i => if i = 1 then some [9] else none) 2 1 = [[9]]
    ∧ reconstruct_binary_file (fun i => if i = 1 then some [9] else none) 2
        = some [9] := by
  have h := reconstruct_scan_and_write (fun i => if i = 1 then some [9] else none)
    1 2 (fun _ => [9]) (by decide) (by decide) (by decide)
  simpa using h

/-! ## Claim theorem for the sentinel output prefix -/

/-- C10.  Sentinel-prefix collision: a caller who explicitly passes the
prefix `"output_bulk"` (the parameter's declared default) does not get
that prefix; the prefix actually used is the source file's basename
with its extension stripped, exactly as if no prefix had been supplied,
so the bulk files can only carry the name `"output_bulk"` when the
source file's stripped basename is itself `"output_bulk"`. -/
theorem output_prefix_sentinel (inputFilePath : String) :
    effectiveOutputPfx inputFilePath "output_bulk"
        = pyStem (pyBasename inputFilePath)
    ∧ effectiveOutputPfx inputFilePath "output_bulk"
        = effectiveOutputPfx inputFilePath defaultOutputPfx
    ∧ (pyStem (pyBasename inputFilePath) ≠ "output_bulk" →
        effectiveOutputPfx inputFilePath "output_bulk" ≠ "output_bulk")
    ∧ ∀ i, bulkFileName (effectiveOutputPfx inputFilePath "output_bulk") i
        = bulkFileName (pyStem (pyBasename inputFilePath)) i := by
  have h1 : effectiveOutputPfx inputFilePath "output_bulk"
      = pyStem (pyBasename inputFilePath) := by
    simp [effectiveOutputPfx]
  refine ⟨h1, by simp [defaultOutputPfx], ?_, ?_⟩
  · intro hne
    rw [h1]
    exact hne
  · intro i
    rw [h1]

/-- Witness for C10: splitting `"data/capture.bin"` with the explicit
prefix `"output_bulk"` names its bulks with the prefix `"capture"`. -/
theorem output_prefix_sentinel_witness :
    effectiveOutputPfx "data/capture.bin" "output_bulk" = "capture"
    ∧ effectiveOutputPfx "data/capture.bin" "output_bulk" ≠ "output_bulk"
    ∧ bulkFileName (effectiveOutputPfx "data/capture.bin" "output_bulk") 1
        = "capture_001.bin" := by
  have h := output_prefix_sentinel "data/capture.bin"
  have hstem : pyStem (pyBasename "data/capture.bin") = "capture" := by decide
  refine ⟨?_, ?_, ?_⟩
  · rw [h.1, hstem]
  · exact h.2.2.1 (by decide)
  · rw [h.2.2.2 1, hstem]
    decide
